import Mathlib

/-!
# Verification of the `en-yup-decorator` metadata registry and schema composition engine

Shallow embedding of the repository's core (`src/metadata.ts`, `src/index.ts`,
`src/en_yup_schema.ts`) in Lean 4, together with theorems settling the
specification's claims about it.

Modelling conventions:
* A JavaScript `Map` is modelled as an insertion-ordered association list.
  `Map.get` returns the first (unique) binding, `Map.set` updates the value of
  an existing key in place (keeping its position, as JS does) and otherwise
  appends the new binding at the end.  `new Map(iterator)` is a left fold of
  `set` over the entries.
* A JavaScript class (a `Function` used as a constructor) is identified with
  its prototype chain, encoded as a nonempty `List Nat` of class identifiers:
  the head is the class itself and the tail is the parent's encoding.
  `Object.getPrototypeOf(cls.prototype).constructor` is then the tail, and the
  `do/while` ancestry walk of `findSchemaMetadata` becomes structural
  recursion on the list.  Distinct classes are encoded by distinct chains.
* Property rules (`PropertySchema`) are opaque to the metadata registry, so
  `MetadataStorage` is parametric in the rule type `σ`, exactly as the
  registry never inspects the stored schemas.
-/

namespace EnYup

/-! ## JavaScript insertion-ordered maps -/

/-- `Map.get`: first binding for the key, if any. -/
def jsGet {κ α : Type} [BEq κ] (m : List (κ × α)) (k : κ) : Option α :=
  (m.find? (fun kv => kv.1 == k)).map (·.2)

/-- `Map.set`: update an existing key in place (keeping its insertion
position), otherwise append the new binding at the end. -/
def jsSet {κ α : Type} [BEq κ] (m : List (κ × α)) (k : κ) (v : α) :
    List (κ × α) :=
  if m.any (fun kv => kv.1 == k) then
    m.map (fun kv => if kv.1 == k then (k, v) else kv)
  else
    m ++ [(k, v)]

/-- `new Map(iterator)`: fold `Map.set` over the listed entries. -/
def mapFromList {κ α : Type} [BEq κ] (l : List (κ × α)) : List (κ × α) :=
  l.foldl (fun m kv => jsSet m kv.1 kv.2) []

/-- The value the last entry of `l` with key `k` holds, if any: what a JS
`Map` built from `l` associates to `k`. -/
def lastAssoc {κ α : Type} [BEq κ] (l : List (κ × α)) (k : κ) : Option α :=
  (l.reverse.find? (fun kv => kv.1 == k)).map (·.2)

/-! ## Classes and the prototype chain -/

/-- A class, encoded by its prototype chain of class identifiers (head = the
class itself, tail = the parent class's encoding). -/
abbrev TargetClass := List Nat

/-- The `do { ... } while (currentTarget)` ancestry walk of
`MetadataStorage.findSchemaMetadata`: the visited classes, from the queried
class up to the root. -/
def protoWalk : TargetClass → List TargetClass
  | [] => []
  | c :: rest => (c :: rest) :: protoWalk rest

/-! ## `MetadataStorage` (src/metadata.ts) -/

/-- The two JS `Map` fields `_metadataMap` and `_metadataCache` of
`MetadataStorage`, parametric in the opaque rule type `σ`. -/
structure MetadataStorage (σ : Type) where
  metadataMap : List (TargetClass × List (String × σ))
  metadataCache : List (TargetClass × List (String × σ))

/-- `MetadataStorage.addSchemaMetadata`: fetch (or create) the per-class
property map and set the property's rule in it. -/
def addSchemaMetadata {σ : Type} (st : MetadataStorage σ) (target : TargetClass)
    (property : String) (schema : σ) : MetadataStorage σ :=
  let schemaMap := (jsGet st.metadataMap target).getD []
  { st with metadataMap := jsSet st.metadataMap target (jsSet schemaMap property schema) }

/-- `MetadataStorage.findSchemaMetadata`: return the cached merge if present;
otherwise walk the prototype chain collecting each class's own map
(`unshift` makes the collected list root-first), return `null` when nothing
was collected, and otherwise build `new Map` of the concatenated entries and
cache it under the queried class.  Returns the result together with the
updated storage. -/
def findSchemaMetadata {σ : Type} (st : MetadataStorage σ) (target : TargetClass) :
    Option (List (String × σ)) × MetadataStorage σ :=
  match jsGet st.metadataCache target with
  | some cachedValue => (some cachedValue, st)
  | none =>
    let inheritanceMaps := ((protoWalk target).filterMap (jsGet st.metadataMap)).reverse
    if inheritanceMaps.isEmpty then
      (none, st)
    else
      let iterator := inheritanceMaps.flatten
      let schemaMap := mapFromList iterator
      (some schemaMap, { st with metadataCache := jsSet st.metadataCache target schemaMap })

/-! ## JavaScript values

The value universe the validation façade and the compiled schemas operate on.
`vobj fields ctor` is an object with insertion-ordered string-keyed fields;
`ctor = some c` means the object is a runtime instance of class `c`
(`new c(...)`), `ctor = none` a plain object literal whose constructor is the
builtin `Object`.  `vfunc c` is a class constructor used as a value. -/

inductive Value where
  | vnull
  | vundef
  | vbool (b : Bool)
  | vnum (n : Int)
  | vstr (s : String)
  | vdate (d : Int)
  | varr (elems : List Value)
  | vobj (fields : List (String × Value)) (ctor : Option TargetClass)
  | vfunc (c : TargetClass)

/-- JavaScript `typeof`. -/
def jsTypeof : Value → String
  | .vnull => "object"
  | .vundef => "undefined"
  | .vbool _ => "boolean"
  | .vnum _ => "number"
  | .vstr _ => "string"
  | .vdate _ => "object"
  | .varr _ => "object"
  | .vobj _ _ => "object"
  | .vfunc _ => "function"

/-- `x instanceof target`: `target.prototype` occurs in `x`'s prototype chain,
i.e. `target`'s chain encoding is a suffix of the chain of `x`'s class. -/
def instanceOf (target : TargetClass) : Value → Bool
  | .vobj _ (some c) => target.isSuffixOf c
  | _ => false

/-- `x.constructor` restricted to the cases the façade reaches: an instance
yields its class; a plain object's constructor is the builtin `Object` and a
primitive's is a builtin wrapper class, neither of which is ever registered in
the schema registry, so both are rendered as `none` here. -/
def constructorOf : Value → Option TargetClass
  | .vobj _ c => c
  | _ => none

/-! ## A model of the collaborator validation engine (yup)

The spec treats yup as an external collaborator; only the behaviour the
claims depend on is modelled.  A `FieldSchema` is one property's opaque rule:
`cast v` models non-strict coercion, returning `none` when yup's cast
returned its input itself (reference-identical, the `!==` comparison inside
yup's object cast observes exactly this) and `some w` when it produced a new
value `w`; `check v` returns the rule's validation-error messages for an
(already cast, in non-strict mode) candidate. -/

structure FieldSchema where
  cast : Value → Option Value
  check : Value → List String

/-- The value a field's cast produces. -/
def castField (f : FieldSchema) (v : Value) : Value :=
  (f.cast v).getD v

/-- A yup object schema: an insertion-ordered shape plus an optional
`required` marking carrying its message (the only refinement the repository
applies to record/object schemas). -/
structure ObjS where
  shape : List (String × FieldSchema)
  required : Option String

/-- Caller-visible validation options (the two consulted by the code). -/
structure VOptions where
  abortEarly : Bool
  strict : Bool

/-- Whether casting the field would change the candidate's property: the key
would be added (`cast undefined` produces a defined value) or its value
replaced (`cast` returned a new value).  Models yup's
`intermediateValue[prop] !== value[prop]` change detection. -/
def fieldChanged (f : FieldSchema) : Option Value → Bool
  | none => !(castField f .vundef matches .vundef)
  | some fv => (f.cast fv).isSome

/-- The fields of the plain object yup's object cast builds: each shape key's
cast value (keys whose cast result is `undefined` are dropped), followed by
the candidate's unknown keys carried over unchanged. -/
def objCastFields (shape : List (String × FieldSchema))
    (fields : List (String × Value)) : List (String × Value) :=
  (shape.filterMap (fun kf =>
    let c := castField kf.2 ((jsGet fields kf.1).getD .vundef)
    if c matches .vundef then none else some (kf.1, c)))
  ++ fields.filter (fun kv => shape.all (fun kf => !(kf.1 == kv.1)))

/-- yup object cast (non-strict): if no property would change, the candidate
itself is returned (same reference); otherwise a freshly built plain object —
note the clone is a plain object, not an instance of any class. Non-objects
are passed through (the type error surfaces in the check phase). -/
def objCast (shape : List (String × FieldSchema)) (v : Value) : Value :=
  match v with
  | .vobj fields ctor =>
    if shape.any (fun kf => fieldChanged kf.2 (jsGet fields kf.1)) then
      .vobj (objCastFields shape fields) none
    else .vobj fields ctor
  | w => w

/-- The check phase of yup object validation: `undefined`/`null` fail only a
`required` marking; an object candidate runs every shape field's rule on the
corresponding property (collecting messages in shape order); any other
candidate is a type error. -/
def objCheckErrors (s : ObjS) : Value → List String
  | .vundef => (s.required.map (fun m => [m])).getD []
  | .vnull => (s.required.map (fun m => [m])).getD []
  | .vobj fields _ => s.shape.flatMap (fun kf => kf.2.check ((jsGet fields kf.1).getD .vundef))
  | _ => ["must be a object type"]

/-- yup `objectSchema.validateSync(value, options)` (and the resolution core of
the asynchronous `validate`, which differs only in delivering the outcome
through a promise): cast unless `strict`, then collect check errors, keeping
only the first one under `abortEarly`. -/
def objValidateSync (opts : VOptions) (s : ObjS) (v : Value) :
    Except (List String) Value :=
  let v2 := if opts.strict then v else objCast s.shape v
  let errs := objCheckErrors s v2
  let errs2 := if opts.abortEarly then errs.take 1 else errs
  if errs2.isEmpty then .ok v2 else .error errs2

/-! ## `EnYupSchema` (src/en_yup_schema.ts) -/

/-- `new target(validData)`: models the documented constructor contract of
target-class mode ("a constructor accepting one argument shaped like the
validated data"): the `new` operator yields a fresh instance of `target`
whose fields the constructor copies from its single argument. -/
def construct (target : TargetClass) (validData : Value) : Value :=
  .vobj (match validData with | .vobj fields _ => fields | _ => []) (some target)

/-- The transform `EnYupSchema` installs in its constructor: validate the
candidate against the inner object schema with the literal options
`{ abortEarly: false, strict: false }` (the thrown `ValidationError`
propagates), then return the validated data itself when the candidate already
is an instance of `target` (`ctx.isType(value)`), else `new target(validData)`.
The closure receives no caller options, exactly as in the source. -/
def enYupTransform (target : TargetClass) (s : ObjS) (value : Value) :
    Except (List String) Value :=
  match objValidateSync ⟨false, false⟩ s value with
  | .error es => .error es
  | .ok validData =>
    if instanceOf target value then .ok validData
    else .ok (construct target validData)

/-- Validation of an `EnYupSchema` (both `validate` and `validateSync` paths;
they differ only in promise wrapping): unless the caller passed
`strict: true` (in which case yup skips the cast phase and with it the
transform), run the transform, then the schema's own type check
`input instanceof target`. -/
def enYupValidate (target : TargetClass) (s : ObjS) (opts : VOptions)
    (value : Value) : Except (List String) Value :=
  let transformed := if opts.strict then .ok value else enYupTransform target s value
  match transformed with
  | .error es => .error es
  | .ok w => if instanceOf target w then .ok w else .error ["this must be a `en_yup_schema` type"]

/-! ## Compiled schemas, the registry and the validation façade (src/index.ts) -/

/-- A compiled class-level schema: shape mode (`yup.object(shape)`) or
target-class mode (`EnYupSchema`). -/
inductive CompiledSchema where
  | objectSchema (s : ObjS)
  | enYup (target : TargetClass) (s : ObjS)

/-- `createEnYupSchema`: an `EnYupSchema` when `useTargetClass`, else a plain
`yup.object(shape)`. -/
def createEnYupSchema (target : TargetClass) (useTargetClass : Bool)
    (shape : List (String × FieldSchema)) : CompiledSchema :=
  if useTargetClass then .enYup target ⟨shape, none⟩
  else .objectSchema ⟨shape, none⟩

/-- Running a compiled schema's validation with the caller's options. -/
def schemaValidate (schema : CompiledSchema) (opts : VOptions) (v : Value) :
    Except (List String) Value :=
  match schema with
  | .objectSchema s => objValidateSync opts s v
  | .enYup target s => enYupValidate target s opts v

/-- The module-level mutable state of src/index.ts: the named-schema table
`_schemas`, the by-constructor table `_allSchemas` and the shared
`metadataStorage`. -/
structure Registry where
  schemas : List (String × CompiledSchema)
  allSchemas : List (TargetClass × CompiledSchema)
  storage : MetadataStorage FieldSchema

/-- The member names of `Object.prototype`.  The named-schema table
`_schemas` is a plain object literal, so a bracket read of one of these
names on it reaches the inherited builtin through the prototype chain. -/
def objectPrototypeMembers : List String :=
  ["constructor", "hasOwnProperty", "isPrototypeOf", "propertyIsEnumerable",
   "toLocaleString", "toString", "valueOf", "__proto__", "__defineGetter__",
   "__defineSetter__", "__lookupGetter__", "__lookupSetter__"]

/-- What a defined property read on the schema tables can produce: a
registered compiled schema (an own property), or — for a name colliding with
an `Object.prototype` member — the inherited builtin (a defined, truthy
value that is not a schema), reached through the prototype chain of the
plain object literal `_schemas`. -/
inductive SchemasProperty where
  | schema (s : CompiledSchema)
  | protoBuiltin (name : String)

/-- `getNamedSchema`: a bracket read `_schemas[name]!` on the plain object
literal `_schemas`.  An own (registered) property wins; otherwise the read
traverses the prototype chain, so a name that is an `Object.prototype`
member yields the inherited builtin; only other unregistered names yield
`undefined`.  The non-null assertion `!` is type-level only — no case
throws. -/
def getNamedSchema (st : Registry) (name : String) : Option SchemasProperty :=
  match jsGet st.schemas name with
  | some s => some (.schema s)
  | none =>
    if objectPrototypeMembers.contains name then some (.protoBuiltin name)
    else none

/-- `getSchemaByType`: use the argument itself when it is a `Function`, else
its `constructor`; then look the class up in `_allSchemas`, yielding
`undefined` (never throwing) on a miss.  `_allSchemas` is a real `Map`,
whose `get` never consults a prototype chain, so — unlike `_schemas` — a
miss here is always genuinely `undefined`; the result is embedded into
`SchemasProperty` for the common façade payload. -/
def getSchemaByType (st : Registry) (target : Value) : Option SchemasProperty :=
  (match target with
   | .vfunc c => jsGet st.allSchemas c
   | v => (constructorOf v).bind (jsGet st.allSchemas)).map .schema

/-- The `schemaName?: string | Function` argument of the façade entry
points. -/
inductive SchemaNameArg where
  | str (s : String)
  | func (c : TargetClass)

/-- `_getSchema`: throw `'Cannot validate non object types'` for `null` or a
non-object candidate; otherwise resolve a named schema for a string argument,
and a by-type schema for a class argument or (when omitted) for the
candidate's own constructor. `Except.error` models the synchronous throw;
`Except.ok` carries the (possibly `undefined`) lookup result. -/
def _getSchema (st : Registry) (object : Value)
    (schemaName : Option SchemaNameArg) : Except String (Option SchemasProperty) :=
  match object, schemaName with
  | .vnull, _ => .error "Cannot validate non object types"
  | o, sn =>
    if jsTypeof o != "object" then .error "Cannot validate non object types"
    else
      match sn with
      | some (.str s) => .ok (getNamedSchema st s)
      | some (.func c) => .ok (getSchemaByType st (.vfunc c))
      | none => .ok (getSchemaByType st o)

/-- `_defineSchema`: resolve the class's metadata (absent ⇒ empty shape),
flatten the resolved map into the shape record in entry order, build the base
schema per mode, apply the optional composition last, register the result in
`_allSchemas` and return it. -/
def _defineSchema (st : Registry) (target : TargetClass)
    (compose : Option (CompiledSchema → CompiledSchema)) (useTargetClass : Bool) :
    CompiledSchema × Registry :=
  let found := findSchemaMetadata st.storage target
  let objectShape := found.1.getD []
  let targetSchema := createEnYupSchema target useTargetClass objectShape
  let composed := (compose.map (fun f => f targetSchema)).getD targetSchema
  (composed,
   { st with storage := found.2, allSchemas := jsSet st.allSchemas target composed })

/-- `_getObjectSchema` (the nested-schema resolver): return the registered
schema for the class — adjusted by the optional composition — when one
exists, without recompiling; only otherwise compile via `_defineSchema`
(shape mode). -/
def _getObjectSchema (st : Registry) (type : TargetClass)
    (compose : Option (CompiledSchema → CompiledSchema)) :
    CompiledSchema × Registry :=
  match jsGet st.allSchemas type with
  | some schemaByType =>
    ((compose.map (fun f => f schemaByType)).getD schemaByType, st)
  | none => _defineSchema st type compose false

/-- `_recordSchema`'s lazy builder: `yup.lazy` invokes it on the candidate at
validation time; for a non-null, non-array object it builds an object schema
assigning the element schema to every key present in the candidate and
applies the caller's refinement to it; for any other candidate it applies the
same refinement to an empty object schema. -/
def _recordSchema (valueSchema : FieldSchema)
    (objectSchema : ObjS → ObjS) (object : Value) : ObjS :=
  match object with
  | .vobj fields _ =>
    objectSchema ⟨fields.map (fun kv => (kv.1, valueSchema)), none⟩
  | _ => objectSchema ⟨[], none⟩

/-- Marking an object schema required with a message: the
`s => s.required('Contacts are required')` refinement the repository passes
to `nestedObject`. -/
def requiredRefine (msg : String) (s : ObjS) : ObjS :=
  { s with required := some msg }

/-! ## Spec-side definitions

Definitions following the specification's words, to be compared with the
embedded code. -/

/-- Well-formedness of the metadata storage: every per-class property map has
duplicate-free keys (guaranteed in JS because `Map.set` never duplicates a
key). -/
def MetadataStorage.WF {σ : Type} (st : MetadataStorage σ) : Prop :=
  ∀ e ∈ st.metadataMap, (e.2.map Prod.fst).Nodup

instance {σ : Type} (st : MetadataStorage σ) : Decidable st.WF := by
  unfold MetadataStorage.WF
  infer_instance

/-- The classes' own metadata maps along the queried class's hierarchy,
root-first, skipping classes without metadata (the code's
`inheritanceMaps`). -/
def chainOwnMaps {σ : Type} (st : MetadataStorage σ) (target : TargetClass) :
    List (List (String × σ)) :=
  ((protoWalk target).filterMap (jsGet st.metadataMap)).reverse

/-- Spec-side: the pointwise override-merge, ancestor-first, of a root-first
list of property maps — for each property, the most derived class's rule. -/
def overrideMergeGet {σ : Type} (maps : List (List (String × σ))) (k : String) :
    Option σ :=
  (maps.filterMap (fun m => jsGet m k)).getLast?

/-! ## Toolkit lemmas about JS maps -/

theorem jsGet_nil {κ α : Type} [BEq κ] (k : κ) :
    jsGet ([] : List (κ × α)) k = none := rfl

theorem jsGet_cons {κ α : Type} [BEq κ] (kv : κ × α) (m : List (κ × α)) (k : κ) :
    jsGet (kv :: m) k = if kv.1 == k then some kv.2 else jsGet m k := by
  simp only [jsGet, List.find?_cons]
  cases h : kv.1 == k <;> simp [h]

theorem jsGet_append {κ α : Type} [BEq κ] (m₁ m₂ : List (κ × α)) (k : κ) :
    jsGet (m₁ ++ m₂) k = (jsGet m₁ k).or (jsGet m₂ k) := by
  simp only [jsGet, List.find?_append]
  cases h : m₁.find? (fun kv => kv.1 == k) <;>
    simp [h, Option.or, Option.orElse]

theorem jsGet_isSome_iff_any {κ α : Type} [BEq κ] (m : List (κ × α)) (k : κ) :
    (jsGet m k).isSome = m.any (fun kv => kv.1 == k) := by
  induction m with
  | nil => rfl
  | cons kv rest ih =>
    rw [jsGet_cons, List.any_cons]
    cases h : kv.1 == k <;> simp [h, ih]

theorem lastAssoc_nil {κ α : Type} [BEq κ] (k : κ) :
    lastAssoc ([] : List (κ × α)) k = none := rfl

theorem lastAssoc_append {κ α : Type} [BEq κ] (m₁ m₂ : List (κ × α)) (k : κ) :
    lastAssoc (m₁ ++ m₂) k = (lastAssoc m₂ k).or (lastAssoc m₁ k) := by
  simp only [lastAssoc, List.reverse_append, List.find?_append]
  cases h : m₂.reverse.find? (fun kv => kv.1 == k) <;>
    simp [h, Option.or, Option.orElse]

theorem lastAssoc_cons {κ α : Type} [BEq κ] (kv : κ × α) (m : List (κ × α)) (k : κ) :
    lastAssoc (kv :: m) k
      = (lastAssoc m k).or (if kv.1 == k then some kv.2 else none) := by
  have h := lastAssoc_append [kv] m k
  simp only [List.singleton_append] at h
  rw [h]
  simp only [lastAssoc, List.reverse_singleton, List.find?_singleton]
  cases hk : kv.1 == k <;> simp [hk]

theorem jsGet_map_update {κ α : Type} [BEq κ] [LawfulBEq κ]
    (m : List (κ × α)) (a k : κ) (b : α) :
    jsGet (m.map (fun kv => if kv.1 == a then (a, b) else kv)) k
      = if a == k then (jsGet m a).map (fun _ => b) else jsGet m k := by
  induction m with
  | nil => cases h : a == k <;> simp [jsGet_nil, h]
  | cons kv rest ih =>
    simp only [List.map_cons]
    cases hka : kv.1 == a
    · rw [if_neg (by simp), jsGet_cons, jsGet_cons, jsGet_cons]
      cases hkk : kv.1 == k
      · simp only [hka, hkk, Bool.false_eq_true, if_false, ih]
      · have hk : kv.1 = k := by simpa using hkk
        have hak : (a == k) = false := by
          cases hh : a == k
          · rfl
          · have haek : a = k := by simpa using hh
            rw [hk, ← haek] at hka
            simp at hka
        simp [hkk, hak]
    · have ha : kv.1 = a := by simpa using hka
      rw [if_pos rfl, jsGet_cons, jsGet_cons, jsGet_cons]
      cases hak : a == k
      · have hkk : (kv.1 == k) = false := by rw [ha]; exact hak
        simp only [hak, hka, hkk, Bool.false_eq_true, if_false, ih,
          if_true]
      · simp [hak, hka]

theorem jsGet_jsSet {κ α : Type} [BEq κ] [LawfulBEq κ]
    (m : List (κ × α)) (a k : κ) (b : α) :
    jsGet (jsSet m a b) k = if a == k then some b else jsGet m k := by
  unfold jsSet
  by_cases h : m.any (fun kv => kv.1 == a)
  · rw [if_pos h, jsGet_map_update]
    have hsome : (jsGet m a).isSome := by rw [jsGet_isSome_iff_any]; exact h
    cases hg : jsGet m a
    · rw [hg] at hsome; simp at hsome
    · cases hak : a == k <;> simp [hak, hg]
  · rw [if_neg h, jsGet_append]
    have hnone : jsGet m a = none := by
      cases hg : jsGet m a with
      | none => rfl
      | some v =>
        have hs : (jsGet m a).isSome := by rw [hg]; rfl
        rw [jsGet_isSome_iff_any] at hs
        exact absurd hs h
    cases hak : a == k
    · simp [jsGet_cons, jsGet_nil, hak]
    · have : a = k := by simpa using hak
      simp [jsGet_cons, jsGet_nil, hak, ← this, hnone]

theorem jsGet_jsSet_self {κ α : Type} [BEq κ] [LawfulBEq κ]
    (m : List (κ × α)) (k : κ) (v : α) :
    jsGet (jsSet m k v) k = some v := by
  rw [jsGet_jsSet]
  simp

theorem jsGet_foldl_jsSet {κ α : Type} [BEq κ] [LawfulBEq κ]
    (l : List (κ × α)) (m₀ : List (κ × α)) (k : κ) :
    jsGet (l.foldl (fun m kv => jsSet m kv.1 kv.2) m₀) k
      = (lastAssoc l k).or (jsGet m₀ k) := by
  induction l generalizing m₀ with
  | nil => simp [lastAssoc_nil]
  | cons kv rest ih =>
    rw [List.foldl_cons, ih, lastAssoc_cons, jsGet_jsSet, Option.or_assoc]
    cases h : kv.1 == k <;> simp [h, Option.or, Option.orElse]

theorem jsGet_mapFromList {κ α : Type} [BEq κ] [LawfulBEq κ]
    (l : List (κ × α)) (k : κ) :
    jsGet (mapFromList l) k = lastAssoc l k := by
  rw [mapFromList, jsGet_foldl_jsSet, jsGet_nil, Option.or_none]

theorem getLast?_cons_or {α : Type} (a : α) (l : List α) :
    (a :: l).getLast? = (l.getLast?).or (some a) := by
  cases l with
  | nil => rfl
  | cons b bs =>
    have hne : (b :: bs).getLast?.isSome := by
      rw [List.getLast?_isSome]; simp
    cases hg : (b :: bs).getLast?
    · rw [hg] at hne; simp at hne
    · rw [List.getLast?_cons_cons, hg]; rfl

theorem lastAssoc_flatten {κ α : Type} [BEq κ]
    (ms : List (List (κ × α))) (k : κ) :
    lastAssoc ms.flatten k = (ms.filterMap (fun m => lastAssoc m k)).getLast? := by
  induction ms with
  | nil => rfl
  | cons m rest ih =>
    rw [List.flatten_cons, lastAssoc_append, ih, List.filterMap_cons]
    cases h : lastAssoc m k
    · simp
    · rw [getLast?_cons_or]

theorem lastAssoc_eq_none_of_not_mem {κ α : Type} [BEq κ] [LawfulBEq κ]
    (m : List (κ × α)) (k : κ) (h : k ∉ m.map Prod.fst) :
    lastAssoc m k = none := by
  unfold lastAssoc
  rw [List.find?_eq_none.mpr]
  · rfl
  · intro kv hkv hbeq
    exact h (List.mem_map.mpr ⟨kv, List.mem_reverse.mp hkv, by simpa using hbeq⟩)

theorem lastAssoc_eq_jsGet {κ α : Type} [BEq κ] [LawfulBEq κ]
    (m : List (κ × α)) (h : (m.map Prod.fst).Nodup) (k : κ) :
    lastAssoc m k = jsGet m k := by
  induction m with
  | nil => rfl
  | cons kv rest ih =>
    rw [lastAssoc_cons, jsGet_cons]
    rw [List.map_cons, List.nodup_cons] at h
    cases hk : kv.1 == k
    · rw [ih h.2]
      simp
    · have hkeq : kv.1 = k := by simpa using hk
      rw [lastAssoc_eq_none_of_not_mem rest k (hkeq ▸ h.1)]
      simp

theorem chainOwnMaps_wf {σ : Type} (st : MetadataStorage σ) (hwf : st.WF)
    (target : TargetClass) :
    ∀ m ∈ chainOwnMaps st target, (m.map Prod.fst).Nodup := by
  intro m hm
  rw [chainOwnMaps, List.mem_reverse] at hm
  obtain ⟨c, _, hc⟩ := List.mem_filterMap.mp hm
  unfold jsGet at hc
  cases hfind : st.metadataMap.find? (fun kv => kv.1 == c) with
  | none => rw [hfind] at hc; simp at hc
  | some e =>
    rw [hfind] at hc
    simp at hc
    cases hc
    exact hwf e (List.mem_of_find?_eq_some hfind)

theorem findSchemaMetadata_unfold_miss {σ : Type} (st : MetadataStorage σ)
    (target : TargetClass)
    (hmiss : jsGet st.metadataCache target = none) :
    findSchemaMetadata st target =
      if (chainOwnMaps st target).isEmpty then (none, st)
      else (some (mapFromList (chainOwnMaps st target).flatten),
            { st with metadataCache := jsSet st.metadataCache target (mapFromList (chainOwnMaps st target).flatten) }) := by
  unfold findSchemaMetadata
  rw [hmiss]
  rfl

/-! ## C1: inheritance-aware metadata resolution -/

theorem filterMap_lastAssoc_eq_jsGet {σ : Type} (L : List (List (String × σ)))
    (hL : ∀ m ∈ L, (m.map Prod.fst).Nodup) (k : String) :
    L.filterMap (fun m => lastAssoc m k) = L.filterMap (fun m => jsGet m k) := by
  induction L with
  | nil => rfl
  | cons m rest ih =>
    rw [List.filterMap_cons, List.filterMap_cons,
        lastAssoc_eq_jsGet m (hL m (List.mem_cons_self m rest)) k,
        ih (fun m' hm' => hL m' (List.mem_cons_of_mem m hm'))]

/-- C1. For a class whose merged metadata is not yet cached, in a well-formed
storage: `findSchemaMetadata` returns absent exactly when no class of the
hierarchy has metadata; pointwise, the result equals the ancestor-first
override-merge of the hierarchy's own metadata maps (the most derived class's
rule wins, so every property an ancestor registers is present unless a more
derived class overrides it); and in particular a rule the queried class
itself registers under a property name is the one the mapping holds for that
name. -/
theorem findSchemaMetadata_is_override_merge {σ : Type} (st : MetadataStorage σ)
    (target : TargetClass) (hwf : st.WF)
    (hmiss : jsGet st.metadataCache target = none) :
    (((findSchemaMetadata st target).1 = none) ↔ chainOwnMaps st target = []) ∧
    (∀ k, (findSchemaMetadata st target).1.bind (fun m => jsGet m k)
        = overrideMergeGet (chainOwnMaps st target) k) ∧
    (∀ m k v, target ≠ [] →
      jsGet st.metadataMap target = some m → jsGet m k = some v →
      (findSchemaMetadata st target).1.bind (fun mm => jsGet mm k) = some v) := by
  rw [findSchemaMetadata_unfold_miss st target hmiss]
  by_cases hemp : (chainOwnMaps st target).isEmpty
  · rw [if_pos hemp]
    have hnil : chainOwnMaps st target = [] := by
      cases h : chainOwnMaps st target
      · rfl
      · rw [h] at hemp; simp [List.isEmpty] at hemp
    refine ⟨by simp [hnil], ?_, ?_⟩
    · intro k
      rw [hnil]
      rfl
    · intro m k v hne hm hv
      exfalso
      cases htgt : target with
      | nil => exact hne htgt
      | cons c rest =>
        have hmem : m ∈ chainOwnMaps st target := by
          rw [chainOwnMaps, List.mem_reverse, htgt]
          exact List.mem_filterMap.mpr ⟨c :: rest, by simp [protoWalk], htgt ▸ hm⟩
        rw [hnil] at hmem
        exact absurd hmem (List.not_mem_nil m)
  · rw [if_neg hemp]
    have hpt : ∀ k, (some (mapFromList (chainOwnMaps st target).flatten)).bind
        (fun m => jsGet m k) = overrideMergeGet (chainOwnMaps st target) k := by
      intro k
      show jsGet (mapFromList (chainOwnMaps st target).flatten) k = _
      rw [jsGet_mapFromList, lastAssoc_flatten, overrideMergeGet,
          filterMap_lastAssoc_eq_jsGet _ (chainOwnMaps_wf st hwf target) k]
    have hnonnil : chainOwnMaps st target ≠ [] := by
      intro h; rw [h] at hemp; exact hemp rfl
    refine ⟨by simp [hnonnil], hpt, ?_⟩
    intro m k v hne hm hv
    show (some (mapFromList (chainOwnMaps st target).flatten)).bind
        (fun mm => jsGet mm k) = some v
    rw [hpt k]
    cases htgt : target with
    | nil => exact absurd htgt hne
    | cons c rest =>
      rw [htgt] at hm
      simp only [chainOwnMaps, htgt, protoWalk, List.filterMap_cons, hm,
        List.reverse_cons, overrideMergeGet, List.filterMap_append]
      simp [hv, List.getLast?_concat]

/-- Witness for C1: a concrete two-class hierarchy (parent `[0]` with
properties `a`, `b`; child `[1, 0]` overriding `b` and adding `c`). -/
theorem findSchemaMetadata_is_override_merge_witness :
    (⟨[([0], [("a", 1), ("b", 2)]), ([1, 0], [("b", 3), ("c", 4)])], []⟩ :
        MetadataStorage Nat).WF ∧
    jsGet (⟨[([0], [("a", 1), ("b", 2)]), ([1, 0], [("b", 3), ("c", 4)])], []⟩ :
        MetadataStorage Nat).metadataCache [1, 0] = none ∧
    ((findSchemaMetadata (⟨[([0], [("a", 1), ("b", 2)]), ([1, 0], [("b", 3), ("c", 4)])], []⟩ :
        MetadataStorage Nat) [1, 0]).1.bind (fun m => jsGet m "b")
      = overrideMergeGet (chainOwnMaps (⟨[([0], [("a", 1), ("b", 2)]), ([1, 0], [("b", 3), ("c", 4)])], []⟩ :
        MetadataStorage Nat) [1, 0]) "b") ∧
    ((findSchemaMetadata (⟨[([0], [("a", 1), ("b", 2)]), ([1, 0], [("b", 3), ("c", 4)])], []⟩ :
        MetadataStorage Nat) [1, 0]).1.bind (fun m => jsGet m "b") = some 3) :=
  ⟨by decide, by decide,
   (findSchemaMetadata_is_override_merge _ [1, 0] (by decide) (by decide)).2.1 "b",
   by decide⟩

/-! ## C4: caching and immutability after first resolution -/

theorem findSchemaMetadata_cache_hit {σ : Type} (st : MetadataStorage σ)
    (target : TargetClass) (m : List (String × σ))
    (h : jsGet st.metadataCache target = some m) :
    findSchemaMetadata st target = (some m, st) := by
  unfold findSchemaMetadata
  rw [h]

theorem findSchemaMetadata_some_cached {σ : Type} (st : MetadataStorage σ)
    (target : TargetClass) (m : List (String × σ))
    (h : (findSchemaMetadata st target).1 = some m) :
    jsGet (findSchemaMetadata st target).2.metadataCache target = some m := by
  cases hc : jsGet st.metadataCache target with
  | some c =>
    rw [findSchemaMetadata_cache_hit st target c hc] at h ⊢
    simp only at h ⊢
    rw [hc, h]
  | none =>
    rw [findSchemaMetadata_unfold_miss st target hc] at h ⊢
    by_cases hemp : (chainOwnMaps st target).isEmpty
    · rw [if_pos hemp] at h
      simp at h
    · rw [if_neg hemp] at h ⊢
      simp only at h ⊢
      simp only [Option.some.injEq] at h
      rw [jsGet_jsSet]
      simp [h]

/-- A batch of later `addSchemaMetadata` registrations, applied in order. -/
def applyAdds {σ : Type} (adds : List (TargetClass × String × σ))
    (st : MetadataStorage σ) : MetadataStorage σ :=
  adds.foldl (fun s a => addSchemaMetadata s a.1 a.2.1 a.2.2) st

theorem applyAdds_metadataCache {σ : Type} (adds : List (TargetClass × String × σ))
    (st : MetadataStorage σ) :
    (applyAdds adds st).metadataCache = st.metadataCache := by
  induction adds generalizing st with
  | nil => rfl
  | cons a rest ih =>
    show (applyAdds rest (addSchemaMetadata st a.1 a.2.1 a.2.2)).metadataCache = _
    rw [ih]
    rfl

/-- C4. Querying `findSchemaMetadata` twice with no registrations in between
returns the same result; and once a non-absent result has been computed (and
hence cached) for a class, any batch of later `addSchemaMetadata`
registrations — on the class itself or any ancestor — leaves the query's
result unchanged. -/
theorem findSchemaMetadata_cached_and_never_invalidated {σ : Type}
    (st : MetadataStorage σ) (target : TargetClass) :
    ((findSchemaMetadata (findSchemaMetadata st target).2 target).1
        = (findSchemaMetadata st target).1) ∧
    (∀ m, (findSchemaMetadata st target).1 = some m →
      ∀ adds : List (TargetClass × String × σ),
        (findSchemaMetadata (applyAdds adds (findSchemaMetadata st target).2) target).1
          = some m) := by
  constructor
  · cases h : (findSchemaMetadata st target).1 with
    | some m =>
      have hc := findSchemaMetadata_some_cached st target m h
      rw [findSchemaMetadata_cache_hit _ target m hc]
    | none =>
      cases hc : jsGet st.metadataCache target with
      | some c =>
        rw [findSchemaMetadata_cache_hit st target c hc] at h
        simp at h
      | none =>
        rw [findSchemaMetadata_unfold_miss st target hc] at h ⊢
        by_cases hemp : (chainOwnMaps st target).isEmpty
        · rw [if_pos hemp] at h ⊢
          simp only
          rw [findSchemaMetadata_unfold_miss st target hc, if_pos hemp]
        · rw [if_neg hemp] at h
          simp at h
  · intro m h adds
    have hc := findSchemaMetadata_some_cached st target m h
    have hcache : jsGet (applyAdds adds (findSchemaMetadata st target).2).metadataCache target
        = some m := by
      rw [applyAdds_metadataCache]
      exact hc
    rw [findSchemaMetadata_cache_hit _ target m hcache]

/-- Witness for C4: a cached result for the child class `[1, 0]` survives a
later registration of a new property on the parent `[0]`. -/
theorem findSchemaMetadata_cached_and_never_invalidated_witness :
    ((findSchemaMetadata (⟨[([0], [("a", 1)])], []⟩ : MetadataStorage Nat) [1, 0]).1
        = some [("a", 1)]) ∧
    ((findSchemaMetadata
        (applyAdds [([0], "x", 9)]
          ((findSchemaMetadata (⟨[([0], [("a", 1)])], []⟩ : MetadataStorage Nat) [1, 0]).2))
        [1, 0]).1 = some [("a", 1)]) :=
  ⟨by decide,
   (findSchemaMetadata_cached_and_never_invalidated
      (⟨[([0], [("a", 1)])], []⟩ : MetadataStorage Nat) [1, 0]).2
     [("a", 1)] (by decide) [([0], "x", 9)]⟩

/-! ## C9: absent results are not cached; late registration before first
non-absent resolution is honoured -/

theorem jsSet_ne_nil {κ α : Type} [BEq κ] (m : List (κ × α)) (k : κ) (v : α) :
    jsSet m k v ≠ [] := by
  unfold jsSet
  by_cases h : m.any (fun kv => kv.1 == k)
  · rw [if_pos h]
    cases m with
    | nil => simp at h
    | cons kv rest => simp
  · rw [if_neg h]
    simp

theorem mem_jsSet {κ α : Type} [BEq κ] (m : List (κ × α)) (k : κ) (v : α)
    (e : κ × α) (he : e ∈ jsSet m k v) : e ∈ m ∨ e = (k, v) := by
  unfold jsSet at he
  by_cases h : m.any (fun kv => kv.1 == k)
  · rw [if_pos h] at he
    obtain ⟨kv, hkv, hupd⟩ := List.mem_map.mp he
    by_cases hk : kv.1 == k
    · right; rw [if_pos hk] at hupd; exact hupd.symm
    · left; rw [if_neg hk] at hupd; exact hupd ▸ hkv
  · rw [if_neg h] at he
    rcases List.mem_append.mp he with h1 | h2
    · exact Or.inl h1
    · exact Or.inr (by simpa using h2)

theorem foldl_jsSet_ne_nil {κ α : Type} [BEq κ] (l : List (κ × α))
    (m : List (κ × α)) (hm : m ≠ []) :
    l.foldl (fun mm kv => jsSet mm kv.1 kv.2) m ≠ [] := by
  induction l generalizing m with
  | nil => exact hm
  | cons kv rest ih =>
    rw [List.foldl_cons]
    exact ih _ (jsSet_ne_nil m kv.1 kv.2)

theorem mapFromList_ne_nil {κ α : Type} [BEq κ] (l : List (κ × α)) (hl : l ≠ []) :
    mapFromList l ≠ [] := by
  cases l with
  | nil => exact absurd rfl hl
  | cons kv rest =>
    rw [mapFromList, List.foldl_cons]
    exact foldl_jsSet_ne_nil rest _ (jsSet_ne_nil [] kv.1 kv.2)

theorem chainOwnMaps_mem {σ : Type} (st : MetadataStorage σ) (target : TargetClass)
    (m : List (String × σ)) (hm : m ∈ chainOwnMaps st target) :
    ∃ e ∈ st.metadataMap, e.2 = m := by
  rw [chainOwnMaps, List.mem_reverse] at hm
  obtain ⟨c, _, hc⟩ := List.mem_filterMap.mp hm
  unfold jsGet at hc
  cases hfind : st.metadataMap.find? (fun kv => kv.1 == c) with
  | none => rw [hfind] at hc; simp at hc
  | some e =>
    rw [hfind] at hc
    simp at hc
    exact ⟨e, List.mem_of_find?_eq_some hfind, hc⟩

theorem filterMap_single_hit {κ β : Type} [BEq κ] [LawfulBEq κ]
    (l : List κ) (anc : κ) (y : β) (f : κ → Option β)
    (hnd : l.Nodup) (hmem : anc ∈ l)
    (hf : ∀ c ∈ l, f c = if anc == c then some y else none) :
    l.filterMap f = [y] := by
  induction l with
  | nil => exact absurd hmem (List.not_mem_nil anc)
  | cons c rest ih =>
    have hnd' := List.nodup_cons.mp hnd
    have hf' : ∀ c' ∈ rest, f c' = if anc == c' then some y else none :=
      fun c' hc' => hf c' (List.mem_cons_of_mem c hc')
    by_cases hceq : anc = c
    · have hfc : f c = some y := by rw [hf c (List.mem_cons_self c rest)]; simp [hceq]
      have hrest : rest.filterMap f = [] := by
        rw [List.filterMap_eq_nil_iff]
        intro c' hc'
        have hne : anc ≠ c' := by
          intro hh
          apply hnd'.1
          rw [← hceq, hh]
          exact hc'
        rw [hf' c' hc']
        simp [hne]
      simp [List.filterMap_cons, hfc, hrest]
    · have hfc : f c = none := by
        rw [hf c (List.mem_cons_self c rest)]
        simp [hceq]
      have hmem' : anc ∈ rest := by
        rcases List.mem_cons.mp hmem with h | h
        · exact absurd h hceq
        · exact h
      simp only [List.filterMap_cons, hfc]
      exact ih hnd'.2 hmem' hf'

theorem protoWalk_mem_length (l : TargetClass) :
    ∀ x ∈ protoWalk l, x.length ≤ l.length := by
  induction l with
  | nil => intro x hx; simp [protoWalk] at hx
  | cons c rest ih =>
    intro x hx
    rw [protoWalk] at hx
    rcases List.mem_cons.mp hx with h | h
    · simp [h]
    · exact Nat.le_trans (ih x h) (by simp)

theorem protoWalk_nodup (l : TargetClass) : (protoWalk l).Nodup := by
  induction l with
  | nil => simp [protoWalk]
  | cons c rest ih =>
    rw [protoWalk]
    refine List.nodup_cons.mpr ⟨?_, ih⟩
    intro hmem
    have := protoWalk_mem_length rest _ hmem
    simp at this

theorem findSchemaMetadata_none_characterize {σ : Type} (st : MetadataStorage σ)
    (target : TargetClass)
    (h : (findSchemaMetadata st target).1 = none) :
    jsGet st.metadataCache target = none ∧ chainOwnMaps st target = [] := by
  cases hc : jsGet st.metadataCache target with
  | some c =>
    rw [findSchemaMetadata_cache_hit st target c hc] at h
    simp at h
  | none =>
    rw [findSchemaMetadata_unfold_miss st target hc] at h
    by_cases hemp : (chainOwnMaps st target).isEmpty
    · refine ⟨rfl, ?_⟩
      cases hh : chainOwnMaps st target
      · rfl
      · rw [hh] at hemp; simp [List.isEmpty] at hemp
    · rw [if_neg hemp] at h
      simp at h

/-- C9. (i) Starting from a state whose per-class maps and cached merges are
all nonempty, both operations preserve that invariant — the cache only ever
holds non-absent, nonempty resolved results; (ii) a query that resolves to
absent leaves the storage (in particular the cache) unchanged; (iii) hence a
registration made on the queried class or any of its ancestors after such an
absent resolution is reflected by the next query, which then resolves to
exactly that newly registered property map. -/
theorem findSchemaMetadata_absent_not_cached {σ : Type} (st : MetadataStorage σ)
    (target : TargetClass) :
    ((∀ e ∈ st.metadataMap, e.2 ≠ []) → (∀ e ∈ st.metadataCache, e.2 ≠ []) →
       (∀ e ∈ (findSchemaMetadata st target).2.metadataCache, e.2 ≠ []) ∧
       (∀ t p r, ∀ e ∈ (addSchemaMetadata st t p r).metadataCache, e.2 ≠ [])) ∧
    ((findSchemaMetadata st target).1 = none → (findSchemaMetadata st target).2 = st) ∧
    ((findSchemaMetadata st target).1 = none →
      ∀ anc p r, anc ∈ protoWalk target →
        (findSchemaMetadata (addSchemaMetadata st anc p r) target).1 = some [(p, r)]) := by
  refine ⟨?_, ?_, ?_⟩
  · intro hmap hcache
    refine ⟨?_, fun t p r => hcache⟩
    cases hc : jsGet st.metadataCache target with
    | some c =>
      rw [findSchemaMetadata_cache_hit st target c hc]
      exact hcache
    | none =>
      rw [findSchemaMetadata_unfold_miss st target hc]
      by_cases hemp : (chainOwnMaps st target).isEmpty
      · rw [if_pos hemp]; exact hcache
      · rw [if_neg hemp]
        intro e he
        simp only at he
        rcases mem_jsSet _ _ _ e he with h | h
        · exact hcache e h
        · rw [h]
          have hflat : (chainOwnMaps st target).flatten ≠ [] := by
            intro hf
            cases hhead : chainOwnMaps st target with
            | nil => rw [hhead] at hemp; exact hemp rfl
            | cons m rest =>
              have hmn : m ≠ [] := by
                obtain ⟨e', he', hee⟩ :=
                  chainOwnMaps_mem st target m (by rw [hhead]; exact List.mem_cons_self m rest)
                exact hee ▸ hmap e' he'
              rw [List.flatten_eq_nil_iff] at hf
              exact hmn (hf m (by rw [hhead]; exact List.mem_cons_self m rest))
          exact mapFromList_ne_nil _ hflat
  · intro h
    obtain ⟨hc, hnil⟩ := findSchemaMetadata_none_characterize st target h
    rw [findSchemaMetadata_unfold_miss st target hc, if_pos (by rw [hnil]; rfl)]
  · intro h anc p r hanc
    obtain ⟨hc, hnil⟩ := findSchemaMetadata_none_characterize st target h
    have hallnone : ∀ c ∈ protoWalk target, jsGet st.metadataMap c = none := by
      have : (protoWalk target).filterMap (jsGet st.metadataMap) = [] := by
        have := congrArg List.reverse hnil
        rw [chainOwnMaps, List.reverse_reverse] at this
        simpa using this
      rw [List.filterMap_eq_nil_iff] at this
      exact this
    have hanc_none : jsGet st.metadataMap anc = none := hallnone anc hanc
    have hmap' : (addSchemaMetadata st anc p r).metadataMap
        = jsSet st.metadataMap anc [(p, r)] := by
      unfold addSchemaMetadata
      rw [hanc_none]
      rfl
    have hcache' : (addSchemaMetadata st anc p r).metadataCache = st.metadataCache := rfl
    have hmiss' : jsGet (addSchemaMetadata st anc p r).metadataCache target = none := by
      rw [hcache']; exact hc
    rw [findSchemaMetadata_unfold_miss _ target hmiss']
    have hchain' : chainOwnMaps (addSchemaMetadata st anc p r) target = [[(p, r)]] := by
      rw [chainOwnMaps, hmap']
      have : (protoWalk target).filterMap (jsGet (jsSet st.metadataMap anc [(p, r)]))
          = [[(p, r)]] := by
        refine filterMap_single_hit (protoWalk target) anc [(p, r)] _
          (protoWalk_nodup target) hanc ?_
        intro c hcmem
        rw [jsGet_jsSet]
        cases hac : anc == c with
        | true =>
          have : anc = c := by simpa using hac
          simp [this]
        | false =>
          simp only [hac, Bool.false_eq_true, if_false]
          exact hallnone c hcmem
      rw [this]
      rfl
    rw [hchain']
    rfl

/-- Witness for C9 part (iii) (and the other parts, which are
hypothesis-free at this input once the invariants are discharged): on an
empty storage, a query for `[1, 0]` is absent; registering `p` on the
ancestor `[0]` afterwards is seen by the next query. -/
theorem findSchemaMetadata_absent_not_cached_witness :
    ((findSchemaMetadata (⟨[], []⟩ : MetadataStorage Nat) [1, 0]).1 = none) ∧
    ((findSchemaMetadata (addSchemaMetadata (⟨[], []⟩ : MetadataStorage Nat) [0] "p" 7) [1, 0]).1
      = some [("p", 7)]) :=
  ⟨by decide,
   (findSchemaMetadata_absent_not_cached (⟨[], []⟩ : MetadataStorage Nat) [1, 0]).2.2
     (by decide) [0] "p" 7 (by decide)⟩

/-! ## C3: ordering of inherited failure messages -/

theorem jsGet_eq_none_of_not_mem {κ α : Type} [BEq κ] [LawfulBEq κ]
    (m : List (κ × α)) (k : κ) (h : k ∉ m.map Prod.fst) :
    jsGet m k = none := by
  unfold jsGet
  rw [List.find?_eq_none.mpr]
  · rfl
  · intro kv hkv hbeq
    exact h (List.mem_map.mpr ⟨kv, hkv, by simpa using hbeq⟩)

theorem beq_false_of_ne {κ : Type} [BEq κ] [LawfulBEq κ] {a b : κ} (h : a ≠ b) :
    (a == b) = false := by
  cases hab : a == b
  · rfl
  · exact absurd (by simpa using hab) h

theorem contains_keys_eq_any {κ α : Type} [BEq κ] [LawfulBEq κ]
    (m : List (κ × α)) (k : κ) :
    (m.map Prod.fst).contains k = m.any (fun kv => kv.1 == k) := by
  induction m with
  | nil => rfl
  | cons kv rest ih =>
    simp only [List.map_cons, List.contains_cons, List.any_cons, ih]
    congr 1
    cases h : kv.1 == k
    · have hne : kv.1 ≠ k := by simpa using h
      rw [beq_false_of_ne (fun hh => hne hh.symm)]
    · have heq : kv.1 = k := by simpa using h
      simp [heq]

/-- `(l ++ [x]).contains a = l.contains a` when `a` is not `x`. -/
theorem contains_append_singleton {κ : Type} [BEq κ] (l : List κ) (x a : κ)
    (h : (a == x) = false) :
    (l ++ [x]).contains a = l.contains a := by
  induction l with
  | nil => simp [List.contains_cons, h]
  | cons y ys ih => simp [List.contains_cons, ih]

/-- The effect of folding JS `Map.set` over a batch of duplicate-free entries
`em` starting from map `m`: keys already in `m` keep their positions, taking
`em`'s value where `em` rebinds them, and `em`'s genuinely new keys are
appended afterwards in `em`'s order. -/
theorem foldl_jsSet_override {κ α : Type} [BEq κ] [LawfulBEq κ]
    (em : List (κ × α)) (hnd : (em.map Prod.fst).Nodup) :
    ∀ m : List (κ × α),
      em.foldl (fun mm kv => jsSet mm kv.1 kv.2) m
        = m.map (fun kv => (kv.1, (jsGet em kv.1).getD kv.2))
          ++ em.filter (fun kv => !((m.map Prod.fst).contains kv.1)) := by
  induction em with
  | nil =>
    intro m
    simp [jsGet_nil]
  | cons kv0 em' ih =>
    intro m
    obtain ⟨k, v⟩ := kv0
    rw [List.map_cons, List.nodup_cons] at hnd
    have hknotin : jsGet em' k = none :=
      jsGet_eq_none_of_not_mem em' k (by simpa using hnd.1)
    have ihm := ih hnd.2 (jsSet m k v)
    rw [List.foldl_cons, ihm]
    by_cases hpres : m.any (fun kv => kv.1 == k)
    · -- the key is already bound in `m`: in-place update
      have hjs : jsSet m k v = m.map (fun kv => if kv.1 == k then (k, v) else kv) := by
        unfold jsSet; rw [if_pos hpres]
      have hkeys : (jsSet m k v).map Prod.fst = m.map Prod.fst := by
        rw [hjs, List.map_map]
        apply List.map_congr_left
        intro kv _
        simp only [Function.comp]
        by_cases hkv : kv.1 == k
        · have hk : kv.1 = k := by simpa using hkv
          rw [if_pos hkv]
          exact hk.symm
        · rw [if_neg hkv]
      have hpart1 : (jsSet m k v).map (fun kv => (kv.1, (jsGet em' kv.1).getD kv.2))
          = m.map (fun kv => (kv.1, (jsGet ((k, v) :: em') kv.1).getD kv.2)) := by
        rw [hjs, List.map_map]
        apply List.map_congr_left
        intro kv _
        simp only [Function.comp]
        by_cases hkv : kv.1 == k
        · have hk : kv.1 = k := by simpa using hkv
          rw [if_pos hkv, jsGet_cons]
          simp [hk, hknotin]
        · have hk : kv.1 ≠ k := by simpa using hkv
          rw [if_neg hkv, jsGet_cons]
          rw [beq_false_of_ne (fun hh => hk hh.symm)]
          simp
      have hhead : ((m.map Prod.fst).contains k) = true := by
        rw [contains_keys_eq_any]; exact hpres
      rw [hpart1, hkeys, List.filter_cons, hhead]
      rfl
    · -- new key: appended at the end of `m`
      have hjs : jsSet m k v = m ++ [(k, v)] := by
        unfold jsSet; rw [if_neg hpres]
      have hmnone : ∀ kv ∈ m, (kv.1 == k) = false := by
        intro kv hkv
        cases h : kv.1 == k
        · rfl
        · exact absurd (List.any_eq_true.mpr ⟨kv, hkv, h⟩) hpres
      have hpart1 : (jsSet m k v).map (fun kv => (kv.1, (jsGet em' kv.1).getD kv.2))
          = m.map (fun kv => (kv.1, (jsGet ((k, v) :: em') kv.1).getD kv.2)) ++ [(k, v)] := by
        rw [hjs, List.map_append]
        congr 1
        · apply List.map_congr_left
          intro kv hkv
          rw [jsGet_cons]
          have hk : kv.1 ≠ k := by simpa using hmnone kv hkv
          rw [beq_false_of_ne (fun hh => hk hh.symm)]
          simp
        · simp [jsGet_cons, hknotin]
      have hkeys : (jsSet m k v).map Prod.fst = m.map Prod.fst ++ [k] := by
        rw [hjs, List.map_append]
        rfl
      have hfilter : em'.filter (fun kv => !(((jsSet m k v).map Prod.fst).contains kv.1))
          = em'.filter (fun kv => !((m.map Prod.fst).contains kv.1)) := by
        apply List.filter_congr
        intro kv hkv
        have hk : (kv.1 == k) = false := by
          cases h : kv.1 == k
          · rfl
          · have hkeq : kv.1 = k := by simpa using h
            exact absurd (List.mem_map.mpr ⟨kv, hkv, hkeq⟩) (by simpa using hnd.1)
        rw [hkeys, contains_append_singleton _ _ _ hk]
      have hhead : ((m.map Prod.fst).contains k) = false := by
        rw [contains_keys_eq_any]
        cases h : m.any (fun kv => kv.1 == k)
        · rfl
        · exact absurd h hpres
      rw [hpart1, hfilter, List.filter_cons, hhead]
      simp [List.append_assoc]

/-- The collaborator engine's report-all-errors behaviour on the empty
candidate `{}` (spec §7: "one message per failing path"; §8: messages listed
in shape order): for a shape of required rules keyed by property name, one
failure message per property, in the shape's insertion order.  Only the
ordering is of interest here, so the opaque rule is identified with its
failure message. -/
def reportAllMessages (shape : List (String × String)) : List String :=
  shape.map (fun kv => kv.2)

theorem findSchemaMetadata_two_level {σ : Type} (st : MetadataStorage σ) (e p : Nat)
    (pm em : List (String × σ))
    (hmiss : jsGet st.metadataCache [e, p] = none)
    (hpm : jsGet st.metadataMap [p] = some pm)
    (hem : jsGet st.metadataMap [e, p] = some em)
    (hpmnd : (pm.map Prod.fst).Nodup) (hemnd : (em.map Prod.fst).Nodup) :
    (findSchemaMetadata st [e, p]).1
      = some (pm.map (fun kv => (kv.1, (jsGet em kv.1).getD kv.2))
          ++ em.filter (fun kv => !((pm.map Prod.fst).contains kv.1))) := by
  have hchain : chainOwnMaps st [e, p] = [pm, em] := by
    rw [chainOwnMaps]
    have hw : protoWalk [e, p] = [[e, p], [p]] := rfl
    rw [hw]
    simp [List.filterMap_cons, hem, hpm]
  rw [findSchemaMetadata_unfold_miss st [e, p] hmiss, hchain]
  have hne : (([pm, em] : List (List (String × σ))).isEmpty) = false := rfl
  rw [hne]
  simp only [Bool.false_eq_true, if_false]
  congr 1
  have hflat : ([pm, em] : List (List (String × σ))).flatten = pm ++ em := by
    simp
  rw [hflat, mapFromList, List.foldl_append]
  have hpm_self : pm.foldl (fun mm kv => jsSet mm kv.1 kv.2) [] = pm := by
    rw [foldl_jsSet_override pm hpmnd []]
    simp
  rw [hpm_self, foldl_jsSet_override em hemnd pm]

/-- Counterexample to C3 as stated: parent class `[0]` declares `a` then `b`;
subclass `[1, 0]` declares `c` and then overrides `b`.  The claim's ordering
(ancestor-declared first, an overridden name once at the subclass's position)
predicts `[a, c, b]`, but the resolved shape — a JS `Map` built
ancestor-first, whose `set` keeps an existing key's position — yields the
overridden `b` at its ancestor position: `[a, b, c]`. -/
theorem inherited_error_order_counterexample :
    reportAllMessages (((findSchemaMetadata
        (addSchemaMetadata (addSchemaMetadata (addSchemaMetadata (addSchemaMetadata
          (⟨[], []⟩ : MetadataStorage String)
          [0] "a" "a is required") [0] "b" "b is required")
          [1, 0] "c" "c is required") [1, 0] "b" "b is required (subclass rule)")
        [1, 0]).1).getD [])
      ≠ ["a is required", "c is required", "b is required (subclass rule)"] ∧
    reportAllMessages (((findSchemaMetadata
        (addSchemaMetadata (addSchemaMetadata (addSchemaMetadata (addSchemaMetadata
          (⟨[], []⟩ : MetadataStorage String)
          [0] "a" "a is required") [0] "b" "b is required")
          [1, 0] "c" "c is required") [1, 0] "b" "b is required (subclass rule)")
        [1, 0]).1).getD [])
      = ["a is required", "b is required (subclass rule)", "c is required"] := by
  constructor
  · decide
  · decide

/-- C3 (amended).  Validating `{}` with report-all-errors options through a
subclass `[e, p]` of parent `[p]` yields the messages for the
ancestor-declared properties first, in the ancestor's declaration order — a
property the subclass overrides appearing exactly once, at its ancestor
(first-declaration) position, but carrying the subclass's rule — followed by
the messages for the subclass-only properties in the subclass's declaration
order. -/
theorem inherited_required_messages_order (st : MetadataStorage String) (e p : Nat)
    (pm em : List (String × String))
    (hmiss : jsGet st.metadataCache [e, p] = none)
    (hpm : jsGet st.metadataMap [p] = some pm)
    (hem : jsGet st.metadataMap [e, p] = some em)
    (hpmnd : (pm.map Prod.fst).Nodup) (hemnd : (em.map Prod.fst).Nodup) :
    reportAllMessages (((findSchemaMetadata st [e, p]).1).getD [])
      = pm.map (fun kv => ((jsGet em kv.1).getD kv.2))
        ++ (em.filter (fun kv => !((pm.map Prod.fst).contains kv.1))).map (fun kv => kv.2) := by
  rw [findSchemaMetadata_two_level st e p pm em hmiss hpm hem hpmnd hemnd]
  rw [Option.getD_some, reportAllMessages, List.map_append, List.map_map]
  rfl

/-- Witness for the amended C3: parent `[0]` declares `a`, `b`; subclass
`[1, 0]` declares `c` and overrides `b`. -/
theorem inherited_required_messages_order_witness :
    reportAllMessages (((findSchemaMetadata
        (⟨[([0], [("a", "ma"), ("b", "mb")]), ([1, 0], [("c", "mc"), ("b", "mb2")])], []⟩ :
          MetadataStorage String) [1, 0]).1).getD [])
      = [("a", "ma"), ("b", "mb")].map
          (fun kv => ((jsGet [("c", "mc"), ("b", "mb2")] kv.1).getD kv.2))
        ++ ([("c", "mc"), ("b", "mb2")].filter
            (fun kv => !(([("a", "ma"), ("b", "mb")].map Prod.fst).contains kv.1))).map
          (fun kv => kv.2) ∧
    reportAllMessages (((findSchemaMetadata
        (⟨[([0], [("a", "ma"), ("b", "mb")]), ([1, 0], [("c", "mc"), ("b", "mb2")])], []⟩ :
          MetadataStorage String) [1, 0]).1).getD [])
      = ["ma", "mb2", "mc"] :=
  ⟨inherited_required_messages_order _ 1 0 _ _ (by decide) (by decide) (by decide)
      (by decide) (by decide),
   by decide⟩

/-! ## C2: target-class mode preserves instances and reconstructs from
validated data -/

theorem objCast_self_or_plain (shape : List (String × FieldSchema)) (v : Value) :
    objCast shape v = v ∨ ∃ nf, objCast shape v = .vobj nf none := by
  cases v with
  | vobj fields ctor =>
    by_cases h : shape.any (fun kf => fieldChanged kf.2 (jsGet fields kf.1))
    · right
      exact ⟨objCastFields shape fields, by simp only [objCast]; rw [if_pos h]⟩
    · left
      simp only [objCast]
      rw [if_neg h]
  | vnull => exact Or.inl rfl
  | vundef => exact Or.inl rfl
  | vbool b => exact Or.inl rfl
  | vnum n => exact Or.inl rfl
  | vstr s => exact Or.inl rfl
  | vdate d => exact Or.inl rfl
  | varr elems => exact Or.inl rfl
  | vfunc c => exact Or.inl rfl

theorem objValidateSync_ok_value (opts : VOptions) (s : ObjS) (v w : Value)
    (h : objValidateSync opts s v = .ok w) :
    w = (if opts.strict then v else objCast s.shape v) := by
  unfold objValidateSync at h
  by_cases he : ((if opts.abortEarly
      then (objCheckErrors s (if opts.strict then v else objCast s.shape v)).take 1
      else objCheckErrors s (if opts.strict then v else objCast s.shape v)).isEmpty)
  · rw [if_pos he] at h
    exact (Except.ok.injEq _ _ ▸ h).symm
  · rw [if_neg he] at h
    exact absurd h (by simp)

theorem instanceOf_construct (target : TargetClass) (d : Value) :
    instanceOf target (construct target d) = true := by
  unfold construct instanceOf
  simp [List.isSuffixOf]

/-- C2. In target-class mode: (i) when the candidate already is an instance
of the class, any successful validation returns that very value — it is
never re-wrapped or copied (a changed cast yields a plain clone, which the
schema's own `instanceof` type check then rejects, so success forces
identity); (ii) when the candidate is not an instance, and its non-strict
shape validation succeeds with data `d`, validation succeeds with exactly
`new target(d)`, which is an instance of the class. -/
theorem enYup_target_class_dispatch (target : TargetClass) (s : ObjS)
    (opts : VOptions) (v : Value) :
    (instanceOf target v = true →
      ∀ w, enYupValidate target s opts v = .ok w → w = v) ∧
    (instanceOf target v = false → opts.strict = false →
      ∀ d, objValidateSync ⟨false, false⟩ s v = .ok d →
        enYupValidate target s opts v = .ok (construct target d) ∧
        instanceOf target (construct target d) = true) := by
  constructor
  · intro hinst w h
    unfold enYupValidate at h
    cases hstrict : opts.strict
    · rw [hstrict] at h
      simp only [Bool.false_eq_true, if_false] at h
      unfold enYupTransform at h
      cases hv : objValidateSync ⟨false, false⟩ s v with
      | error es => rw [hv] at h; simp at h
      | ok validData =>
        rw [hv, hinst] at h
        simp only [if_true] at h
        have hval : validData = objCast s.shape v :=
          objValidateSync_ok_value ⟨false, false⟩ s v validData hv
        by_cases hi : instanceOf target validData = true
        · rw [hi] at h
          simp only [if_true] at h
          cases h
          rcases objCast_self_or_plain s.shape v with hc | ⟨nf, hc⟩
          · exact hval.trans hc
          · rw [hval, hc] at hi
            simp [instanceOf] at hi
        · rw [if_neg (by simpa using hi)] at h
          simp at h
    · rw [hstrict] at h
      simp only [if_true] at h
      rw [hinst] at h
      simp only [if_true] at h
      cases h
      rfl
  · intro hninst hstrict d hd
    refine ⟨?_, instanceOf_construct target d⟩
    unfold enYupValidate
    rw [hstrict]
    simp only [Bool.false_eq_true, if_false]
    unfold enYupTransform
    rw [hd, hninst]
    simp only [Bool.false_eq_true, if_false]
    rw [instanceOf_construct target d]
    simp

/-- A concrete property rule for witnesses: a required string, no coercion
(the cast returns its input for every value). -/
def requiredStringRule (msg : String) : FieldSchema :=
  ⟨fun _ => none, fun v => match v with | .vstr _ => [] | _ => [msg]⟩

/-- Witness for C2: class `[0]` with a required string property `name`; an
already-valid instance is returned as-is, and the equivalent plain object is
validated and reconstructed into a new instance. -/
theorem enYup_target_class_dispatch_witness :
    ((Value.vobj [("name", Value.vstr "A")] (some [0]))
        = (Value.vobj [("name", Value.vstr "A")] (some [0]))) ∧
    (enYupValidate [0] ⟨[("name", requiredStringRule "name is required")], none⟩
        ⟨false, false⟩ (Value.vobj [("name", Value.vstr "A")] none)
      = .ok (construct [0] (Value.vobj [("name", Value.vstr "A")] none)) ∧
     instanceOf [0] (construct [0] (Value.vobj [("name", Value.vstr "A")] none)) = true) :=
  ⟨(enYup_target_class_dispatch [0]
      ⟨[("name", requiredStringRule "name is required")], none⟩
      ⟨false, false⟩ (Value.vobj [("name", Value.vstr "A")] (some [0]))).1
      rfl (Value.vobj [("name", Value.vstr "A")] (some [0])) rfl,
   (enYup_target_class_dispatch [0]
      ⟨[("name", requiredStringRule "name is required")], none⟩
      ⟨false, false⟩ (Value.vobj [("name", Value.vstr "A")] none)).2
      rfl rfl (Value.vobj [("name", Value.vstr "A")] none) rfl⟩

/-! ## C10: the inner shape validation of a target-class schema runs with
pinned options -/

/-- C10. The transform `EnYupSchema` installs closes over no caller options:
its inner shape validation always runs `validateSync` with the literal
options `{ abortEarly: false, strict: false }`.  Consequently two calls into
a target-class schema that agree on `strict = false` (so that the collaborator
runs the cast/transform phase at all) produce identical results whatever
`abortEarly` (or any other option) the callers passed — on the synchronous
and the promise-wrapped path alike, which share this resolution core. -/
theorem enYup_inner_options_pinned (target : TargetClass) (s : ObjS)
    (opts₁ opts₂ : VOptions) (v : Value)
    (h₁ : opts₁.strict = false) (h₂ : opts₂.strict = false) :
    enYupValidate target s opts₁ v = enYupValidate target s opts₂ v := by
  unfold enYupValidate
  rw [h₁, h₂]

/-- Witness for C10: with two failing required properties, a caller passing
`abortEarly: true` still gets both inner messages — the transform pinned
`abortEarly: false` for the nested shape validation. -/
theorem enYup_inner_options_pinned_witness :
    (enYupValidate [0]
        ⟨[("a", requiredStringRule "a is required"),
          ("b", requiredStringRule "b is required")], none⟩
        ⟨true, false⟩ (Value.vobj [] none)
      = enYupValidate [0]
        ⟨[("a", requiredStringRule "a is required"),
          ("b", requiredStringRule "b is required")], none⟩
        ⟨false, false⟩ (Value.vobj [] none)) ∧
    (enYupValidate [0]
        ⟨[("a", requiredStringRule "a is required"),
          ("b", requiredStringRule "b is required")], none⟩
        ⟨true, false⟩ (Value.vobj [] none)
      = .error ["a is required", "b is required"]) :=
  ⟨enYup_inner_options_pinned [0]
      ⟨[("a", requiredStringRule "a is required"),
        ("b", requiredStringRule "b is required")], none⟩
      ⟨true, false⟩ ⟨false, false⟩ (Value.vobj [] none) rfl rfl,
   rfl⟩

/-! ## C5: deferred record/map-of schemas -/

theorem jsGet_mem_of_nodup {κ α : Type} [BEq κ] [LawfulBEq κ]
    (m : List (κ × α)) (h : (m.map Prod.fst).Nodup) :
    ∀ kv ∈ m, jsGet m kv.1 = some kv.2 := by
  induction m with
  | nil => intro kv hkv; exact absurd hkv (List.not_mem_nil kv)
  | cons e rest ih =>
    rw [List.map_cons, List.nodup_cons] at h
    intro kv hkv
    rcases List.mem_cons.mp hkv with heq | hmem
    · rw [heq, jsGet_cons]
      simp
    · rw [jsGet_cons]
      have hne : e.1 ≠ kv.1 := by
        intro hh
        exact h.1 (hh ▸ List.mem_map.mpr ⟨kv, hmem, rfl⟩)
      rw [beq_false_of_ne hne]
      simp only [Bool.false_eq_true, if_false]
      exact ih h.2 kv hmem

theorem flatMap_congr_mem {α β : Type} (l : List α) (f g : α → List β)
    (h : ∀ a ∈ l, f a = g a) : l.flatMap f = l.flatMap g := by
  induction l with
  | nil => rfl
  | cons a rest ih =>
    rw [List.flatMap_cons, List.flatMap_cons, h a (List.mem_cons_self a rest),
        ih (fun a' ha' => h a' (List.mem_cons_of_mem a ha'))]

/-- The guard of `_recordSchema`'s lazy builder:
`object && typeof object === 'object' && !Array.isArray(object)`. -/
def isRecordCandidate : Value → Bool
  | .vobj _ _ => true
  | _ => false

/-- C5. The record schema is deferred: (i) on a non-null, non-array object
candidate, the built schema — before the caller's refinement is applied to it
— assigns the element schema to exactly the keys present in the candidate;
(ii) on any other candidate the same refinement is applied to the empty
object schema; (iii) for a non-coercing element schema, validating the built
schema against the candidate collects exactly each entry's own element
errors, independently, in entry order; (iv)/(v) with the repository's
`required`-marking refinement, a boolean candidate fails with the object
type error and `null` fails with the required message — never a silent
pass. -/
theorem recordSchema_deferred (vs : FieldSchema) (refine : ObjS → ObjS)
    (msg : String) (v : Value) (b : Bool) :
    (∀ fields ctor, _recordSchema vs refine (.vobj fields ctor)
        = refine ⟨fields.map (fun kv => (kv.1, vs)), none⟩) ∧
    (isRecordCandidate v = false → _recordSchema vs refine v = refine ⟨[], none⟩) ∧
    (∀ fields ctor, (fields.map Prod.fst).Nodup → (∀ x, vs.cast x = none) →
      objValidateSync ⟨false, false⟩
          (_recordSchema vs (fun s => s) (.vobj fields ctor)) (.vobj fields ctor)
        = if (fields.flatMap (fun kv => vs.check kv.2)).isEmpty
          then .ok (.vobj fields ctor)
          else .error (fields.flatMap (fun kv => vs.check kv.2))) ∧
    (objValidateSync ⟨false, false⟩
        (_recordSchema vs (requiredRefine msg) (.vbool b)) (.vbool b)
      = .error ["must be a object type"]) ∧
    (objValidateSync ⟨false, false⟩
        (_recordSchema vs (requiredRefine msg) .vnull) .vnull
      = .error [msg]) := by
  refine ⟨fun fields ctor => rfl, ?_, ?_, rfl, rfl⟩
  · intro h
    cases v with
    | vobj fields ctor => simp [isRecordCandidate] at h
    | vnull => rfl
    | vundef => rfl
    | vbool b' => rfl
    | vnum n => rfl
    | vstr s => rfl
    | vdate d => rfl
    | varr elems => rfl
    | vfunc c => rfl
  · intro fields ctor hnd hcast
    have hsch : _recordSchema vs (fun s => s) (.vobj fields ctor)
        = ⟨fields.map (fun kv => (kv.1, vs)), none⟩ := rfl
    rw [hsch]
    have hnochange : ∀ (f : Option Value), fieldChanged vs f = false := by
      intro f
      cases f with
      | none => simp [fieldChanged, castField, hcast]
      | some x => simp [fieldChanged, hcast]
    have hcastv : objCast (fields.map (fun kv => (kv.1, vs))) (.vobj fields ctor)
        = .vobj fields ctor := by
      simp only [objCast]
      rw [if_neg]
      simp [hnochange]
    have herrs : objCheckErrors ⟨fields.map (fun kv => (kv.1, vs)), none⟩ (.vobj fields ctor)
        = fields.flatMap (fun kv => vs.check kv.2) := by
      show (fields.map (fun kv => (kv.1, vs))).flatMap
          (fun kf => kf.2.check ((jsGet fields kf.1).getD .vundef))
        = fields.flatMap (fun kv => vs.check kv.2)
      rw [List.flatMap_map]
      apply flatMap_congr_mem
      intro kv hkv
      rw [jsGet_mem_of_nodup fields hnd kv hkv]
      rfl
    unfold objValidateSync
    simp only [Bool.false_eq_true, if_false, hcastv, herrs]

/-- Witness for C5: a record candidate with entries `1` and `2`, one valid
and one failing, under a required-string element rule. -/
theorem recordSchema_deferred_witness :
    (_recordSchema (requiredStringRule "name is required") (fun s => s)
        (.vobj [("1", .vstr "A"), ("2", .vnum 0)] none)
      = ⟨[("1", requiredStringRule "name is required"),
          ("2", requiredStringRule "name is required")], none⟩) ∧
    (objValidateSync ⟨false, false⟩
        (_recordSchema (requiredStringRule "name is required") (fun s => s)
          (.vobj [("1", .vstr "A"), ("2", .vnum 0)] none))
        (.vobj [("1", .vstr "A"), ("2", .vnum 0)] none)
      = .error ["name is required"]) ∧
    (objValidateSync ⟨false, false⟩
        (_recordSchema (requiredStringRule "name is required")
          (requiredRefine "Contacts are required") (.vbool true)) (.vbool true)
      = .error ["must be a object type"]) :=
  ⟨(recordSchema_deferred (requiredStringRule "name is required") (fun s => s)
      "Contacts are required" (.vbool true) true).1
      [("1", .vstr "A"), ("2", .vnum 0)] none,
   by
    rw [(recordSchema_deferred (requiredStringRule "name is required") (fun s => s)
      "Contacts are required" (.vbool true) true).2.2.1
      [("1", .vstr "A"), ("2", .vnum 0)] none (by decide) (fun x => rfl)]
    rfl,
   (recordSchema_deferred (requiredStringRule "name is required") (fun s => s)
      "Contacts are required" (.vbool true) true).2.2.2.1⟩

/-! ## C6: nested resolver reuses registered schemas; registration is
immediately visible -/

/-- C6. (i) When a compiled schema is registered for the referenced class,
the nested resolver returns it (through the optional composition) with the
registry unchanged — no recompilation; (ii) only on a lookup miss does it
invoke `_defineSchema`; (iii) `_defineSchema` registers the schema it
returns under the class before returning, so the registration is visible to
the resolver immediately. -/
theorem nested_resolver_reuse (st : Registry) (type : TargetClass)
    (compose : Option (CompiledSchema → CompiledSchema)) :
    (∀ s, jsGet st.allSchemas type = some s →
      _getObjectSchema st type compose
        = ((compose.map (fun f => f s)).getD s, st)) ∧
    (jsGet st.allSchemas type = none →
      _getObjectSchema st type compose = _defineSchema st type compose false) ∧
    (∀ u, jsGet (_defineSchema st type compose u).2.allSchemas type
        = some (_defineSchema st type compose u).1) := by
    refine ⟨?_, ?_, ?_⟩
    · intro s hs
      unfold _getObjectSchema
      rw [hs]
    · intro hs
      unfold _getObjectSchema
      rw [hs]
    · intro u
      exact jsGet_jsSet_self st.allSchemas type _

/-- Witness for C6: a registry holding a compiled schema for class `[0]` is
consulted without recompiling; freshly compiling a schema for class `[1]` on
an empty registry makes it immediately visible. -/
theorem nested_resolver_reuse_witness :
    (_getObjectSchema
        (⟨[], [([0], CompiledSchema.objectSchema ⟨[], none⟩)], ⟨[], []⟩⟩ : Registry)
        [0] none
      = (CompiledSchema.objectSchema ⟨[], none⟩,
         (⟨[], [([0], CompiledSchema.objectSchema ⟨[], none⟩)], ⟨[], []⟩⟩ : Registry))) ∧
    (jsGet (_defineSchema (⟨[], [], ⟨[], []⟩⟩ : Registry) [1] none false).2.allSchemas [1]
      = some (_defineSchema (⟨[], [], ⟨[], []⟩⟩ : Registry) [1] none false).1) :=
  ⟨(nested_resolver_reuse
      (⟨[], [([0], CompiledSchema.objectSchema ⟨[], none⟩)], ⟨[], []⟩⟩ : Registry)
      [0] none).1 (CompiledSchema.objectSchema ⟨[], none⟩) rfl,
   (nested_resolver_reuse (⟨[], [], ⟨[], []⟩⟩ : Registry) [1] none).2.2 false⟩

/-! ## C7: validation entry resolution -/

/-- C7. `_getSchema`: (i) for `null` or a non-object candidate the usage
error is raised synchronously (`Except.error` models the `throw`) — and, no
schema being resolved, the outcome is the same whatever the registry holds;
(ii) otherwise a string `schemaName` resolves by name, a class `schemaName`
resolves by type, and an omitted one resolves through the candidate's own
runtime constructor. -/
theorem getSchema_dispatch (st : Registry) (object : Value)
    (schemaName : Option SchemaNameArg) :
    ((object = .vnull ∨ jsTypeof object ≠ "object") →
      _getSchema st object schemaName = .error "Cannot validate non object types" ∧
      ∀ st' : Registry, _getSchema st' object schemaName = _getSchema st object schemaName) ∧
    (object ≠ .vnull → jsTypeof object = "object" →
      (∀ s, schemaName = some (.str s) →
        _getSchema st object schemaName = .ok (getNamedSchema st s)) ∧
      (∀ c, schemaName = some (.func c) →
        _getSchema st object schemaName = .ok (getSchemaByType st (.vfunc c))) ∧
      (schemaName = none →
        _getSchema st object schemaName = .ok (getSchemaByType st object))) := by
  constructor
  · intro h
    have herr : ∀ st'' : Registry,
        _getSchema st'' object schemaName = .error "Cannot validate non object types" := by
      intro st''
      rcases h with h | h
      · rw [h]; rfl
      · cases object with
        | vnull => rfl
        | vundef => rfl
        | vbool b => rfl
        | vnum n => rfl
        | vstr s => rfl
        | vdate d => exact absurd rfl h
        | varr elems => exact absurd rfl h
        | vobj fields ctor => exact absurd rfl h
        | vfunc c => rfl
    exact ⟨herr st, fun st' => (herr st').trans (herr st).symm⟩
  · intro hnn hobj
    refine ⟨?_, ?_, ?_⟩
    · intro s hs
      rw [hs]
      cases object with
      | vnull => exact absurd rfl hnn
      | vdate d => rfl
      | varr elems => rfl
      | vobj fields ctor => rfl
      | vundef => simp [jsTypeof] at hobj
      | vbool b => simp [jsTypeof] at hobj
      | vnum n => simp [jsTypeof] at hobj
      | vstr s' => simp [jsTypeof] at hobj
      | vfunc c => simp [jsTypeof] at hobj
    · intro c hc
      rw [hc]
      cases object with
      | vnull => exact absurd rfl hnn
      | vdate d => rfl
      | varr elems => rfl
      | vobj fields ctor => rfl
      | vundef => simp [jsTypeof] at hobj
      | vbool b => simp [jsTypeof] at hobj
      | vnum n => simp [jsTypeof] at hobj
      | vstr s' => simp [jsTypeof] at hobj
      | vfunc c' => simp [jsTypeof] at hobj
    · intro hn
      rw [hn]
      cases object with
      | vnull => exact absurd rfl hnn
      | vdate d => rfl
      | varr elems => rfl
      | vobj fields ctor => rfl
      | vundef => simp [jsTypeof] at hobj
      | vbool b => simp [jsTypeof] at hobj
      | vnum n => simp [jsTypeof] at hobj
      | vstr s' => simp [jsTypeof] at hobj
      | vfunc c => simp [jsTypeof] at hobj

/-- Witness for C7: validating the number `5` errors regardless of the
registry; an instance of `[0]` with no `schemaName` dispatches through its
constructor. -/
theorem getSchema_dispatch_witness :
    (_getSchema (⟨[], [], ⟨[], []⟩⟩ : Registry) (.vnum 5) none
      = .error "Cannot validate non object types") ∧
    (_getSchema (⟨[], [([0], CompiledSchema.objectSchema ⟨[], none⟩)], ⟨[], []⟩⟩ : Registry)
        (.vobj [] (some [0])) none
      = .ok (getSchemaByType
          (⟨[], [([0], CompiledSchema.objectSchema ⟨[], none⟩)], ⟨[], []⟩⟩ : Registry)
          (.vobj [] (some [0])))) :=
  ⟨((getSchema_dispatch (⟨[], [], ⟨[], []⟩⟩ : Registry) (.vnum 5) none).1
      (Or.inr (by decide))).1,
   ((getSchema_dispatch
      (⟨[], [([0], CompiledSchema.objectSchema ⟨[], none⟩)], ⟨[], []⟩⟩ : Registry)
      (.vobj [] (some [0])) none).2 (by intro h; cases h) rfl).2.2 rfl⟩

/-! ## C8: lookup misses are silent — except that `_schemas`, a plain object
literal, inherits the members of `Object.prototype` -/

/-- Counterexample to C8 as stated: `"toString"` is registered in no schema
(the registry's named table is empty), yet `getNamedSchema` does not return
an absent value — the bracket read on the plain object literal `_schemas`
reaches the inherited `Object.prototype.toString` through the prototype
chain, a defined, truthy non-schema value. -/
theorem lookup_miss_silent_counterexample :
    (⟨[], [], ⟨[], []⟩⟩ : Registry).schemas = [] ∧
    getNamedSchema (⟨[], [], ⟨[], []⟩⟩ : Registry) "toString"
      = some (.protoBuiltin "toString") ∧
    getNamedSchema (⟨[], [], ⟨[], []⟩⟩ : Registry) "toString" ≠ none :=
  ⟨rfl, rfl, fun h => Option.noConfusion h⟩

/-- C8 (amended). `getNamedSchema` on an unregistered name that is not an
`Object.prototype` member, and `getSchemaByType` on a never-compiled class
(given either as the class itself or through one of its instances), return
the absent value; an unregistered name that is an `Object.prototype` member
instead yields the truthy inherited builtin, not an absent value.  All model
functions are total — exactly as the source never throws here, the non-null
assertion `!` notwithstanding — so a lookup miss is silent either way, and
it is the caller's burden to treat the result as an error condition. -/
theorem lookup_miss_silent (st : Registry) (name : String) (c : TargetClass) :
    ((∀ e ∈ st.schemas, e.1 ≠ name) → objectPrototypeMembers.contains name = false →
      getNamedSchema st name = none) ∧
    ((∀ e ∈ st.schemas, e.1 ≠ name) → objectPrototypeMembers.contains name = true →
      getNamedSchema st name = some (.protoBuiltin name)) ∧
    ((∀ e ∈ st.allSchemas, e.1 ≠ c) →
      getSchemaByType st (.vfunc c) = none ∧
      ∀ fields, getSchemaByType st (.vobj fields (some c)) = none) := by
  have hown : (∀ e ∈ st.schemas, e.1 ≠ name) → jsGet st.schemas name = none := by
    intro h
    unfold jsGet
    rw [List.find?_eq_none.mpr]
    · rfl
    · intro e he hbeq
      exact h e he (by simpa using hbeq)
  refine ⟨?_, ?_, ?_⟩
  · intro h hproto
    unfold getNamedSchema
    rw [hown h, hproto]
    rfl
  · intro h hproto
    unfold getNamedSchema
    rw [hown h, hproto]
    rfl
  · intro h
    have hmiss : jsGet st.allSchemas c = none := by
      unfold jsGet
      rw [List.find?_eq_none.mpr]
      · rfl
      · intro e he hbeq
        exact h e he (by simpa using hbeq)
    refine ⟨?_, fun fields => ?_⟩
    · show (jsGet st.allSchemas c).map SchemasProperty.schema = none
      rw [hmiss]
      rfl
    · show (jsGet st.allSchemas c).map SchemasProperty.schema = none
      rw [hmiss]
      rfl

/-- Witness for the amended C8 on an empty registry: the ordinary name
`"user"` misses silently, the colliding name `"toString"` yields the
inherited builtin, and the never-compiled class `[0]` misses by type. -/
theorem lookup_miss_silent_witness :
    (getNamedSchema (⟨[], [], ⟨[], []⟩⟩ : Registry) "user" = none) ∧
    (getNamedSchema (⟨[], [], ⟨[], []⟩⟩ : Registry) "toString"
      = some (.protoBuiltin "toString")) ∧
    (getSchemaByType (⟨[], [], ⟨[], []⟩⟩ : Registry) (.vfunc [0]) = none) :=
  ⟨(lookup_miss_silent (⟨[], [], ⟨[], []⟩⟩ : Registry) "user" [0]).1
      (by intro e he; cases he) (by decide),
   (lookup_miss_silent (⟨[], [], ⟨[], []⟩⟩ : Registry) "toString" [0]).2.1
      (by intro e he; cases he) (by decide),
   ((lookup_miss_silent (⟨[], [], ⟨[], []⟩⟩ : Registry) "user" [0]).2.2
      (by intro e he; cases he)).1⟩

end EnYup
